import Mathlib

/-!
# Verification of the rootpy binding-generation layer

A shallow embedding, in Lean 4, of the parts of the `rootpy` repository that
its specification makes claims about:

* `rootpy/pythonize.py`: the runtime code-generation facility
  (`check_name`, `SnakeMethods.get_snake_names`, `descriptors`, the
  `Attribute`/`Class` source templates and `pythonized`);
* `rootpy/util/descriptors.py`: `ROOTDescriptor` / `ROOTStaticDescriptor`;
* `rootpy/root2hdf5.py`: `_drop_object_col` and the two conversion paths of
  `tree2hdf5`.

Python-level machine details (strings, dicts, the filesystem, the attribute
protocol) are embedded explicitly: strings as Lean `String`, dicts as
association lists with replace-on-insert, the source cache directory as an
association list from file names to file contents, and Python 2 class
attributes as a small datatype covering plain functions, static methods,
class methods, properties and (un)bound methods.

Helpers imported by the embedded code from repository modules that are not
part of the sources at hand (`rootpy/util/extras.py`'s `camel_to_snake`,
`rootpy/extern/lockfile.py`'s `LockFile`) are modelled from the
specification; each such definition is marked in its doc comment.
-/

namespace Rootpy

/-! ## ASCII character helpers

Python's `str.lower` / `str.capitalize` / `str.islower` restricted to ASCII
(the only characters occurring in the wrapped classes' method names), via an
explicit uppercase/lowercase table so that proofs can proceed by list
reasoning.
-/

/-- The ASCII uppercase letters paired with their lowercase forms. -/
def asciiTable : List (Char × Char) :=
  [('A', 'a'), ('B', 'b'), ('C', 'c'), ('D', 'd'), ('E', 'e'), ('F', 'f'),
   ('G', 'g'), ('H', 'h'), ('I', 'i'), ('J', 'j'), ('K', 'k'), ('L', 'l'),
   ('M', 'm'), ('N', 'n'), ('O', 'o'), ('P', 'p'), ('Q', 'q'), ('R', 'r'),
   ('S', 's'), ('T', 't'), ('U', 'u'), ('V', 'v'), ('W', 'w'), ('X', 'x'),
   ('Y', 'y'), ('Z', 'z')]

/-- `c` is an ASCII uppercase letter. -/
def pyIsUpper (c : Char) : Bool :=
  (asciiTable.lookup c).isSome

/-- `c` is an ASCII lowercase letter. -/
def pyIsLower (c : Char) : Bool :=
  asciiTable.any (fun p => p.2 == c)

/-- Lowercase an ASCII character (identity on everything else). -/
def pyToLower (c : Char) : Char :=
  (asciiTable.lookup c).getD c

/-- Uppercase an ASCII character (identity on everything else). -/
def pyToUpper (c : Char) : Char :=
  match asciiTable.find? (fun p => p.2 == c) with
  | some p => p.1
  | none => c

/-- Python's `str.islower`: at least one cased character and no uppercase
cased character.  (`'_'` and digits are uncased.) -/
def pyStrIsLower (s : String) : Bool :=
  s.toList.any (fun c => pyIsUpper c || pyIsLower c) &&
    s.toList.all (fun c => !pyIsUpper c)

/-- Python's `str.capitalize`: first character uppercased, the rest
lowercased. -/
def pyCapitalize (s : String) : String :=
  match s.toList with
  | [] => ""
  | c :: cs => String.mk (pyToUpper c :: cs.map pyToLower)

/-! ## `keyword.iskeyword` and `check_name` -/

/-- The Python 2.7 keyword list (`keyword.kwlist`). -/
def kwlist : List String :=
  ["and", "as", "assert", "break", "class", "continue", "def", "del",
   "elif", "else", "except", "exec", "finally", "for", "from", "global",
   "if", "import", "in", "is", "lambda", "not", "or", "pass", "print",
   "raise", "return", "try", "while", "with", "yield"]

/-- `keyword.iskeyword`. -/
def iskeyword (s : String) : Bool :=
  kwlist.contains s

/-- `pythonize.check_name`: reject the name `flush` and Python keywords.
(The `cls` argument of the source function is used only for logging and is
dropped here.) -/
def check_name (name : String) : Bool :=
  if name == "flush" then false
  else if iskeyword name then false
  else true

/-! ## `camel_to_snake` -/

/-- Helper for `camel_to_snake`: the conversion of every character after the
first (an underscore is inserted before each uppercase letter). -/
def snakeTail : List Char → List Char
  | [] => []
  | c :: cs =>
    if pyIsUpper c then '_' :: pyToLower c :: snakeTail cs
    else pyToLower c :: snakeTail cs

/-- Modelled from the spec: `camel_to_snake` from `rootpy/util/extras.py`
(not among the sources at hand).  The spec describes the generator as
emitting "lowercase-named aliases" via a "naming convention transformer"
converting CamelCase to snake_case: an underscore is inserted before each
non-initial uppercase letter and the whole name is lowercased. -/
def camel_to_snake (name : String) : String :=
  match name.toList with
  | [] => ""
  | c :: cs => String.mk (pyToLower c :: snakeTail cs)

example : camel_to_snake "LongMethodName" = "long_method_name" := by decide
example : camel_to_snake "Cd" = "cd" := by decide
example : camel_to_snake "Write" = "write" := by decide
example : pyCapitalize "AB" = "Ab" := by decide
example : pyStrIsLower "cd" = true := by decide
example : pyStrIsLower "Cd" = false := by decide
example : check_name "del" = false := by decide
example : check_name "flush" = false := by decide
example : check_name "long_method_name" = true := by decide

/-! ## Methods as seen by the generator

`pythonized` introspects `inspect.getmembers(cls, predicate=inspect.ismethod)`
and, per method, `thing.func_doc` parsed by `CPPGrammar.parse_method`
(from `rootpy/util/cpp.py`, not among the sources at hand).  A method is
embedded as its `__name__` together with the outcome of that parse: `none`
when the method has no docstring or the docstring does not parse, and
otherwise the parsed C++ signature's return type and whether its first
token is `static`. -/

/-- The part of a parsed C++ method signature that `descriptors` consults:
`sig['return']` and `sig[0] == 'static'`. -/
structure MethodSig where
  ret : String
  isStatic : Bool
  deriving DecidableEq, Repr

/-- A wrapped method: its `__name__` and its parsed docstring signature
(`none` models `func_doc is None` as well as an unparsable docstring). -/
structure PyMethod where
  pyname : String
  sig : Option MethodSig
  deriving DecidableEq, Repr

/-- `DESCRIPTOR_PATTERN`: `re.match` of a name against
`^(?P<access>([sS]|[gG])et)(?P<prop>.+)$`, returning the access letter and
the property name.  (`.` in the pattern excludes a newline, but method
names never contain one.) -/
def matchDescriptor (name : String) : Option (Char × String) :=
  match name.toList with
  | a :: 'e' :: 't' :: c :: rest =>
    if a == 's' || a == 'S' || a == 'g' || a == 'G' then
      some (a, String.mk (c :: rest))
    else none
  | _ => none

example : matchDescriptor "SetTitle" = some ('S', "Title") := by decide
example : matchDescriptor "getX" = some ('g', "X") := by decide
example : matchDescriptor "Set" = none := by decide
example : matchDescriptor "Draw" = none := by decide

/-! ## Python dicts as association lists

`setters` and `getters` in `descriptors` are Python dicts: assignment to an
existing key replaces its value in place, assignment to a fresh key appends
it.  Iteration yields each key once. -/

/-- Python dict assignment `m[k] = v`. -/
def upsert (m : List (String × α)) (k : String) (v : α) : List (String × α) :=
  match m with
  | [] => [(k, v)]
  | (k', v') :: rest =>
    if k' == k then (k, v) :: rest else (k', v') :: upsert rest k v

/-! ## `descriptors` (`pythonize.py` lines 157-201) -/

/-- The first loop of `descriptors`: walk the methods and fill the
`setters` and `getters` dicts.  A name matching the descriptor pattern with
access letter `s`/`S` is stored as a setter when its signature parses with
return type `void`; a `g`/`G` name is stored as a getter when its signature
parses with a non-`void` return type.  Methods without a parsing docstring
are skipped. -/
def collectAccessors (setters getters : List (String × (PyMethod × Bool))) :
    List (String × PyMethod) →
      List (String × (PyMethod × Bool)) × List (String × (PyMethod × Bool))
  | [] => (setters, getters)
  | (name, thing) :: rest =>
    match matchDescriptor name with
    | none => collectAccessors setters getters rest
    | some (a, prop) =>
      match thing.sig with
      | none => collectAccessors setters getters rest
      | some sig =>
        if pyToUpper a == 'S' then
          if sig.ret == "void" then
            collectAccessors (upsert setters prop (thing, sig.isStatic)) getters rest
          else collectAccessors setters getters rest
        else
          if sig.ret == "void" then
            collectAccessors setters getters rest
          else
            collectAccessors setters (upsert getters prop (thing, sig.isStatic)) rest

/-- A `name = value` line of a generated class body
(`pythonize.Attribute`). -/
structure PyAttr where
  name : String
  value : String
  deriving DecidableEq, Repr

/-- The second loop of `descriptors`, keyed by the property each emitted
attribute was generated for: for every setter whose property also has a
getter with the same static qualifier and whose snake-case name passes
`check_name`, emit the descriptor assignment
`ROOT[Static]Descriptor(Base.Setter, Base.Getter)`. -/
def descPairs (base : String) (methods : List (String × PyMethod)) :
    List (String × PyAttr) :=
  let maps := collectAccessors [] [] methods
  maps.1.filterMap (fun pr =>
    match maps.2.lookup pr.1 with
    | none => none
    | some (getter, gStatic) =>
      if pr.2.2 != gStatic then none
      else
        let snake := camel_to_snake pr.1
        if !check_name snake then none
        else
          let descCls :=
            if pr.2.2 then "ROOTStaticDescriptor" else "ROOTDescriptor"
          some (pr.1,
            ⟨snake,
             descCls ++ "(" ++ base ++ "." ++ pr.2.1.pyname ++ ", " ++
               base ++ "." ++ getter.pyname ++ ")"⟩))

/-- `descriptors` as called by `pythonized`: the attribute lines appended to
the class proxy. -/
def descriptorsAttrs (base : String) (methods : List (String × PyMethod)) :
    List PyAttr :=
  (descPairs base methods).map (fun p => p.2)

/-! ## `SnakeMethods.get_snake_names` (`pythonize.py` lines 82-119) -/

/-- `CONVERT_SNAKE_CASE`: the `NO_ROOTPY_SNAKE_CASE` environment variable is
unset by default. -/
def CONVERT_SNAKE_CASE : Bool := true

/-- The duplicate scan of `get_snake_names`: for each capitalized name, if
it was already seen, mark the current position and `seen.index(n)` — the
index of the name in the `seen` list, not in the original list — as
duplicates.  `seen` grows only on first occurrences. -/
def duplicateScan (i : Nat) (seen : List String) (dup : List Nat) :
    List String → List Nat
  | [] => dup
  | n :: rest =>
    match seen.findIdx? (fun m => m == n) with
    | some idx => duplicateScan (i + 1) seen (i :: idx :: dup) rest
    | none => duplicateScan (i + 1) (seen ++ [n]) dup rest

/-- `SnakeMethods.get_snake_names`: pairs `(name, snake_name)` of methods
receiving a snake-case alias.  Positions marked by the duplicate scan over
the capitalized names are skipped; so are names starting with an underscore,
names that are already entirely lowercase, and names whose snake-case form
fails `check_name`.  (Member names are never empty; an empty name is mapped
to no alias.) -/
def get_snake_names (methods : List (String × β)) : List (String × String) :=
  if !CONVERT_SNAKE_CASE then []
  else
    let caps := methods.map (fun p => pyCapitalize p.1)
    let dup := duplicateScan 0 [] [] caps
    methods.enum.filterMap (fun p =>
      if dup.contains p.1 then none
      else
        match p.2.1.toList with
        | [] => none
        | c :: _ =>
          if c == '_' || pyStrIsLower p.2.1 then none
          else
            let snake := camel_to_snake p.2.1
            if !check_name snake then none
            else some (p.2.1, snake))

/-- `SnakeMethods.snake_methods` as called by `pythonized`: one attribute
line `snake_name = Base.Name` per snake-case alias. -/
def snakeMethodsAttrs (base : String) (methods : List (String × β)) :
    List PyAttr :=
  (get_snake_names methods).map (fun p => ⟨p.2, base ++ "." ++ p.1⟩)

/-! ## Declarative setter/getter conditions

Used to state what `descriptors` emits, independently of its dicts. -/

/-- The static qualifier of a method's parsed signature (`false` when the
docstring did not parse; only consulted for methods whose signature
parsed). -/
def sigStatic (m : String × PyMethod) : Bool :=
  match m.2.sig with
  | some sig => sig.isStatic
  | none => false

/-- `m` is a method named `Set<P>` or `set<P>` whose docstring parses with
return type `void`. -/
def setterDecl (P : String) (m : String × PyMethod) : Bool :=
  (m.1 == "Set" ++ P || m.1 == "set" ++ P) &&
    (match m.2.sig with
     | some sig => sig.ret == "void"
     | none => false)

/-- `m` is a method named `Get<P>` or `get<P>` whose docstring parses with
a non-`void` return type. -/
def getterDecl (P : String) (m : String × PyMethod) : Bool :=
  (m.1 == "Get" ++ P || m.1 == "get" ++ P) &&
    (match m.2.sig with
     | some sig => !(sig.ret == "void")
     | none => false)

/-- The last element of a list satisfying a predicate. -/
def lastMatch (p : α → Bool) : List α → Option α
  | [] => none
  | a :: l =>
    match lastMatch p l with
    | some b => some b
    | none => if p a then some a else none

/-- The claim's alias condition, following the specification's words: the
class has a method `Set<P>` (or `set<P>`) parsing with return type `void`
AND a method `Get<P>` (or `get<P>`) parsing with a non-void return type,
both agreeing on being static, and the derived name passes the name check.
(This is the claim side of the comparison, not the code's own logic.) -/
def specAliasCond (ms : List (String × PyMethod)) (P : String) : Bool :=
  (ms.any fun st =>
    setterDecl P st &&
      (ms.any fun gt => getterDecl P gt && (sigStatic st == sigStatic gt))) &&
  check_name (camel_to_snake P)

/-! ## The generated source (`Attribute.__str__`, `Class.TEMPLATE`) -/

/-- `Attribute.__str__`: a four-space indented assignment line. -/
def renderAttr (a : PyAttr) : String :=
  "    " ++ a.name ++ " = " ++ a.value

/-- `pythonize.Class`: the proxy for the generated subclass source —
subclass name, base-class name and the attribute lines of the body. -/
structure ClassSrc where
  name : String
  base : String
  attrs : List PyAttr
  deriving DecidableEq, Repr

/-- `Class.TEMPLATE` instantiated by `Class.__str__`: the import header, the
`{base} = QROOT.{base}` binding, the single `class {name}({base}):` header
and the joined attribute lines. -/
def renderClass (c : ClassSrc) : String :=
  "from rootpy.pythonize import ROOTDescriptor, ROOTStaticDescriptor\n" ++
  "from rootpy import asrootpy, QROOT\n\n" ++
  c.base ++ " = QROOT." ++ c.base ++ "\n\n" ++
  "class " ++ c.name ++ "(" ++ c.base ++ "):\n" ++
  String.intercalate "\n" (c.attrs.map renderAttr) ++ "\n    "

/-! ## `pythonized` (`pythonize.py` lines 277-308)

The source cache directory `SOURCE_PATH` is embedded as an association list
from file names to file contents; `pythonized`'s effect on it and the
contents it imports are made explicit.  Importing the generated module and
taking `getattr(modhandle, subcls_name)` is embedded as returning the file
contents: the generated file defines the single class `subcls_name`, so the
contents determine the imported class. -/

/-- The source cache directory: file name to file contents. -/
abbrev SourceDir := List (String × String)

/-- `os.path.isfile` / reading a cached file. -/
def fsLookup (fs : SourceDir) (name : String) : Option String :=
  fs.lookup name

/-- Creating or overwriting a file. -/
def fsWrite (fs : SourceDir) (name content : String) : SourceDir :=
  upsert fs name content

/-- `os.unlink`. -/
def fsErase (fs : SourceDir) (name : String) : SourceDir :=
  fs.filter (fun p => p.1 != name)

/-- A wrapped class as the generator sees it: its `__name__` and its
`inspect.getmembers(cls, predicate=inspect.ismethod)` list. -/
structure PyClass where
  name : String
  methods : List (String × PyMethod)
  deriving DecidableEq, Repr

/-- The class proxy built by the generation branch of `pythonized`:
`Class(subcls_name, cls_name)` filled by `descriptors` and then
`SnakeMethods(True).snake_methods`. -/
def genProxy (cls : PyClass) : ClassSrc :=
  { name := cls.name ++ "_pythonized"
    base := cls.name
    attrs := descriptorsAttrs cls.name cls.methods ++
             snakeMethodsAttrs cls.name cls.methods }

/-- The contents written to the cache file for `cls`. -/
def genSource (cls : PyClass) : String :=
  renderClass (genProxy cls)

/-- `pythonized`: check for `<cls.__name__>.py` in the source cache; if it
is absent, generate and write it; in either case import the (now existing)
file and return its class.  Returns the updated cache directory and
the imported contents. -/
def pythonizedFS (fs : SourceDir) (cls : PyClass) : SourceDir × String :=
  let out := cls.name ++ ".py"
  match fsLookup fs out with
  | some contents => (fs, contents)
  | none => (fsWrite fs out (genSource cls), genSource cls)

/-- `pythonized` with the generation steps' outcome made explicit: `gen` is
`Except.error e` when introspection, signature parsing or writing raises
after `open(out_name, 'w')` created the file, with `fragment` the contents
written up to that point; the `except` clause unlinks the file and
re-raises.  On success the error component is never produced. -/
def pythonizedE (fs : SourceDir) (cls : PyClass) (gen : Except ε String)
    (fragment : String) : Except (ε × SourceDir) (SourceDir × String) :=
  let out := cls.name ++ ".py"
  match fsLookup fs out with
  | some contents => .ok (fs, contents)
  | none =>
    match gen with
    | .ok src => .ok (fsWrite fs out src, src)
    | .error e => .error (e, fsErase (fsWrite fs out fragment) out)

/-! ## `ROOTDescriptor` and `ROOTStaticDescriptor`
(`pythonize.py` lines 28-52, identical in `util/descriptors.py` lines 12-36)

The wrapped setter is a call with an effect; its result type is left
abstract.  `__get__` receives `(instance, owner)` and `__set__`
`(instance, value)` exactly as in the descriptor protocol. -/

/-- `ROOTDescriptor`: holds the wrapped setter and getter. -/
structure ROOTDescriptorM (I V E : Type) where
  root_setter : I → V → E
  root_getter : I → V

/-- `ROOTDescriptor.__get__`. -/
def descGet (d : ROOTDescriptorM I V E) (inst : I) (_owner : O) : V :=
  d.root_getter inst

/-- `ROOTDescriptor.__set__`. -/
def descSet (d : ROOTDescriptorM I V E) (inst : I) (value : V) : E :=
  d.root_setter inst value

/-- `ROOTStaticDescriptor`: the wrapped callables take no instance. -/
structure ROOTStaticDescriptorM (V E : Type) where
  root_setter : V → E
  root_getter : Unit → V

/-- `ROOTStaticDescriptor.__get__`: calls the getter with no argument. -/
def staticDescGet (d : ROOTStaticDescriptorM V E) (_inst : I) (_owner : O) : V :=
  d.root_getter ()

/-- `ROOTStaticDescriptor.__set__`: calls the setter with only the value. -/
def staticDescSet (d : ROOTStaticDescriptorM V E) (_inst : I) (value : V) : E :=
  d.root_setter value

/-! ## Python 2 class attributes

What a class's `__dict__` can hold at the entries the generator touches,
and what `getattr` on the class returns for each (the descriptor protocol
with a `None` instance): a plain function is wrapped into an unbound
method, a `staticmethod` yields the plain function, a `classmethod` a bound
method, a `property` itself, and method objects pass through. -/

/-- A Python 2 class-dict entry over an abstract function payload. -/
inductive PyEntry (F : Type) where
  | func (f : F)
  | staticm (f : F)
  | classm (f : F)
  | prop (f : F)
  | unboundm (f : F)
  | boundm (f : F)
  deriving DecidableEq, Repr

/-- Attribute access `getattr(cls, name)` on a class-dict entry. -/
def classGetattr : PyEntry F → PyEntry F
  | .func f => .unboundm f
  | .staticm f => .func f
  | .classm f => .boundm f
  | .prop f => .prop f
  | .unboundm f => .unboundm f
  | .boundm f => .boundm f

/-- `type(...)` of the object an entry evaluates to. -/
def pyTypeName : PyEntry F → String
  | .func _ => "function"
  | .staticm _ => "staticmethod"
  | .classm _ => "classmethod"
  | .prop _ => "property"
  | .unboundm _ => "instancemethod"
  | .boundm _ => "instancemethod"

/-- `inspect.ismethod` on the object an entry evaluates to. -/
def ismethod : PyEntry F → Bool
  | .unboundm _ => true
  | .boundm _ => true
  | _ => false

/-- A class with its `__dict__` in `getmembers` (sorted-name) order. -/
structure PyClassDict (F : Type) where
  name : String
  dict : List (String × PyEntry F)
  deriving DecidableEq, Repr

/-- `inspect.getmembers(cls, predicate=inspect.ismethod)`: the attribute
names together with the `getattr`'d values that are methods. -/
def methodMembers (d : List (String × PyEntry F)) : List (String × PyEntry F) :=
  d.filterMap (fun p =>
    if ismethod (classGetattr p.2) then some (p.1, classGetattr p.2) else none)

/-- The snake-case aliases of the generated subclass, as class-dict
entries: the generated file's line `snake = Base.Name` evaluates
`getattr(Base, Name)` at import time and stores the resulting object.
Each triple is `(original name, snake name, stored entry)`. -/
def snakeAliasEntries (c : PyClassDict F) :
    List (String × String × PyEntry F) :=
  (get_snake_names (methodMembers c.dict)).filterMap (fun p =>
    (c.dict.lookup p.1).map (fun e => (p.1, p.2, classGetattr e)))

/-! ## The lock around the cache check and generation

`pythonized` holds `LockFile(os.path.join(SOURCE_PATH, "lock"))` around the
`os.path.isfile` check and the generation/write of the cache file.
`LockFile` lives in `rootpy/extern/lockfile.py`, which is not among the
sources at hand; following the spec ("incidental file-locking around a
source-cache directory shared by multiple processes"), it is modelled as a
mutual-exclusion lock: acquisition succeeds only while no process holds the
lock, and only the holder can release it.  A process executing `pythonized`
is modelled by its event trace, and two processes by the schedules that
interleave their traces subject to the lock semantics. -/

/-- The events of one `pythonized` call, with the file they touch. -/
inductive Ev where
  | acq
  | rel
  | chk (f : String)
  | wr (f : String)
  | imp (f : String)
  deriving DecidableEq, Repr

/-- The event trace of `pythonized(cls)` against cache state `fs`: acquire
the lock, check for the cache file, write it when absent, release, then do
the import (outside the lock). -/
def pythonizedTrace (fs : SourceDir) (cls : PyClass) : List Ev :=
  let out := cls.name ++ ".py"
  [Ev.acq, Ev.chk out] ++
    (if (fsLookup fs out).isSome then [] else [Ev.wr out]) ++
    [Ev.rel, Ev.imp out]

/-- Event kinds with the file payload erased (the lock semantics and the
interference question do not depend on it). -/
inductive EvK where
  | acq
  | rel
  | chk
  | wr
  | imp
  deriving DecidableEq, Repr

/-- Erase an event's payload. -/
def eraseEv : Ev → EvK
  | .acq => .acq
  | .rel => .rel
  | .chk _ => .chk
  | .wr _ => .wr
  | .imp _ => .imp

/-- The two possible shapes of a `pythonized` trace: with the write (cache
file absent) or without it. -/
def traceShape (w : Bool) : List EvK :=
  [EvK.acq, EvK.chk] ++ (if w then [EvK.wr] else []) ++ [EvK.rel, EvK.imp]

/-- Modelled from the spec: one scheduling step under the mutual-exclusion
lock of `rootpy/extern/lockfile.py` (not among the sources at hand).
`h` is the current holder; acquiring requires the lock to be free, releasing
requires being the holder, and every other event is always enabled.
Returns the new holder, or `none` when the step is blocked. -/
def okStep (h : Option Bool) (p : Bool) (e : EvK) : Option (Option Bool) :=
  match e with
  | .acq => match h with
    | none => some (some p)
    | some _ => none
  | .rel => match h with
    | some q => if q == p then some none else none
    | none => none
  | _ => some h

/-- Valid schedules: `Sched h t₁ t₂ s` holds when `s` interleaves the
remaining traces `t₁` (process `false`) and `t₂` (process `true`) starting
from lock holder `h`, each step enabled by `okStep`. -/
inductive Sched : Option Bool → List EvK → List EvK → List (Bool × EvK) → Prop where
  | nil : Sched h [] [] []
  | left : okStep h false e = some h₂ → Sched h₂ t₁ t₂ s →
      Sched h (e :: t₁) t₂ ((false, e) :: s)
  | right : okStep h true e = some h₂ → Sched h₂ t₁ t₂ s →
      Sched h t₁ (e :: t₂) ((true, e) :: s)

/-- All valid schedules from a given state, with a fuel argument equal to
the number of pending events (the schedules are finitely many; `Sched`
derivations map into this list). -/
def allScheds : Nat → Option Bool → List EvK → List EvK → List (List (Bool × EvK))
  | _, _, [], [] => [[]]
  | fuel + 1, h, e₁ :: r₁, [] =>
    (match okStep h false e₁ with
     | some h₂ => (allScheds fuel h₂ r₁ []).map (fun s => (false, e₁) :: s)
     | none => [])
  | fuel + 1, h, [], e₂ :: r₂ =>
    (match okStep h true e₂ with
     | some h₂ => (allScheds fuel h₂ [] r₂).map (fun s => (true, e₂) :: s)
     | none => [])
  | fuel + 1, h, e₁ :: r₁, e₂ :: r₂ =>
    (match okStep h false e₁ with
     | some h₂ => (allScheds fuel h₂ r₁ (e₂ :: r₂)).map (fun s => (false, e₁) :: s)
     | none => []) ++
    (match okStep h true e₂ with
     | some h₂ => (allScheds fuel h₂ (e₁ :: r₁) r₂).map (fun s => (true, e₂) :: s)
     | none => [])
  | 0, _, _, _ => []

/-- The events of the check-then-write critical work. -/
def isCrit (e : EvK) : Bool :=
  e == EvK.chk || e == EvK.wr

/-- The processes owning the critical events of a schedule, in order. -/
def critPids (s : List (Bool × EvK)) : List Bool :=
  s.filterMap (fun p => if isCrit p.2 then some p.1 else none)

/-- Collapse adjacent equal elements. -/
def blocks : List Bool → List Bool
  | [] => []
  | [p] => [p]
  | p :: q :: r => if p == q then blocks (q :: r) else p :: blocks (q :: r)

/-- The critical events of the two processes do not interleave: their owner
sequence switches processes at most once. -/
def noInterleave (l : List Bool) : Prop :=
  (blocks l).length ≤ 2

/-! ## `tree2hdf5` (`root2hdf5.py` lines 32-48 and 117-166)

A `TTree` is embedded as its name, its column schema (each column with the
flag `fields[name][0].kind == 'O'`) and its entry rows; `tree2array` (from
the external `root_numpy`) as slicing the rows at `[start, stop)` and
filtering them by the selection; an HDF5 dataset as the list of rows
appended to it. -/

/-- A TTree: name, schema (column name, is-object-typed) and rows. -/
structure TTreeM (α : Type) where
  name : String
  schema : List (String × Bool)
  rows : List (List α)

/-- Project one row onto the non-object columns. -/
def projRow (schema : List (String × Bool)) (row : List α) : List α :=
  (schema.zip row).filterMap (fun p => if p.1.2 then none else some p.2)

/-- `_drop_object_col`: when the dtype has object columns, drop them from
every row; otherwise return the array unchanged. -/
def dropObjectCols (schema : List (String × Bool)) (rows : List (List α)) :
    List (List α) :=
  if schema.any (fun c => c.2) then rows.map (projRow schema) else rows

/-- The schema after `_drop_object_col`. -/
def dropSchema (schema : List (String × Bool)) : List (String × Bool) :=
  schema.filter (fun c => !c.2)

/-- `_drop_object_col` as a per-row function. -/
def dropRow (schema : List (String × Bool)) (row : List α) : List α :=
  if schema.any (fun c => c.2) then projRow schema row else row

/-- `tree2array(tree, selection=sel)`: the whole tree filtered by the
selection. -/
def tree2arrayAll (t : TTreeM α) (sel : List α → Bool) : List (List α) :=
  t.rows.filter sel

/-- `tree2array(tree, selection=sel, start=start, stop=stop)`: the slice
`[start, stop)` of the tree filtered by the selection. -/
def tree2arraySlice (t : TTreeM α) (sel : List α → Bool) (start stop : Nat) :
    List (List α) :=
  ((t.rows.drop start).take (stop - start)).filter sel

/-- The whole-tree path of `tree2hdf5` (`entries <= 0`): one `tree2array`
call, object columns dropped, one dataset creation. -/
def wholeRows (t : TTreeM α) (sel : List α → Bool) : List (List α) :=
  dropObjectCols t.schema (tree2arrayAll t sel)

/-- The chunked loop of `tree2hdf5`: read `e + 1` entries starting at
`start`, drop object columns, append to the dataset (resizing first), then
advance `start` by the chunk size while `start` is below the total entry
count.  (`e + 1` is the positive chunk size; the loop body runs once even
for an empty tree, creating the empty dataset.) -/
def chunkFrom (t : TTreeM α) (sel : List α → Bool) (e : Nat) (start : Nat) :
    List (List α) :=
  let array := dropObjectCols t.schema
    (tree2arraySlice t sel start (start + (e + 1)))
  if _h : start + (e + 1) < t.rows.length then
    array ++ chunkFrom t sel e (start + (e + 1))
  else array
  termination_by t.rows.length - start

/-- `tree2hdf5`, as the rows of the dataset it creates for the tree: the
whole-tree path when `entries <= 0`, otherwise the chunked path with chunk
size `entries`. -/
def tree2hdf5Rows (t : TTreeM α) (sel : List α → Bool) (entries : Int) :
    List (List α) :=
  if entries ≤ 0 then wholeRows t sel
  else chunkFrom t sel (entries.toNat - 1) 0

/-! ## Association-list lemmas -/

theorem lookup_upsert_self (m : List (String × α)) (k : String) (v : α) :
    List.lookup k (upsert m k v) = some v := by
  induction m with
  | nil => simp [upsert, List.lookup]
  | cons p rest ih =>
    obtain ⟨k', v'⟩ := p
    by_cases h : k' = k
    · subst h
      simp [upsert, List.lookup]
    · have hb : (k' == k) = false := beq_eq_false_iff_ne.mpr h
      have hb' : (k == k') = false := beq_eq_false_iff_ne.mpr (Ne.symm h)
      simp [upsert, hb, List.lookup, hb', ih]

theorem lookup_upsert_ne (m : List (String × α)) (k : String) (v : α)
    (k' : String) (h : k' ≠ k) :
    List.lookup k' (upsert m k v) = List.lookup k' m := by
  induction m with
  | nil =>
    simp [upsert, List.lookup, beq_eq_false_iff_ne.mpr h]
  | cons p rest ih =>
    obtain ⟨k₀, v₀⟩ := p
    by_cases h₀ : k₀ = k
    · subst h₀
      simp [upsert, List.lookup, beq_eq_false_iff_ne.mpr h]
    · simp [upsert, beq_eq_false_iff_ne.mpr h₀, List.lookup, ih]

theorem erase_write_absent (fs : SourceDir) (k v : String)
    (h : List.lookup k fs = none) : fsErase (fsWrite fs k v) k = fs := by
  induction fs with
  | nil => simp [fsErase, fsWrite, upsert, List.filter]
  | cons p rest ih =>
    obtain ⟨k₀, v₀⟩ := p
    rw [List.lookup_cons] at h
    by_cases h₀ : k = k₀
    · simp [h₀] at h
    · have hb : (k == k₀) = false := beq_eq_false_iff_ne.mpr h₀
      have hb' : (k₀ == k) = false := beq_eq_false_iff_ne.mpr (Ne.symm h₀)
      rw [hb] at h
      simp only [fsErase, fsWrite, upsert, hb', List.filter, bne, hb',
        Bool.not_false] at ih ⊢
      exact congrArg _ (ih h)

/-! ## Claim theorems -/

/-- C4: reading a generated property-style attribute on an instance returns
exactly the wrapped getter applied to that instance (with no argument in
the static variant, which ignores instance and owner), and assigning calls
the wrapped setter with the instance and value (with only the value in the
static variant); the descriptor performs no other computation. -/
theorem C4_descriptor_semantics :
    (∀ (I V E O : Type) (d : ROOTDescriptorM I V E) (inst : I) (owner : O),
      descGet d inst owner = d.root_getter inst) ∧
    (∀ (I V E : Type) (d : ROOTDescriptorM I V E) (inst : I) (value : V),
      descSet d inst value = d.root_setter inst value) ∧
    (∀ (V E I O : Type) (d : ROOTStaticDescriptorM V E) (inst : I) (owner : O),
      staticDescGet d inst owner = d.root_getter ()) ∧
    (∀ (V E I : Type) (d : ROOTStaticDescriptorM V E) (inst : I) (value : V),
      staticDescSet d inst value = d.root_setter value) ∧
    (∀ (V E I O I₂ O₂ : Type) (d : ROOTStaticDescriptorM V E)
      (i : I) (o : O) (i₂ : I₂) (o₂ : O₂),
      staticDescGet d i o = staticDescGet d i₂ o₂) :=
  ⟨fun _ _ _ _ _ _ _ => rfl, fun _ _ _ _ _ _ => rfl,
   fun _ _ _ _ _ _ _ => rfl, fun _ _ _ _ _ _ => rfl,
   fun _ _ _ _ _ _ _ _ _ _ _ => rfl⟩

/-- C2: the generated subclass source is cached in the file
`<cls.__name__>.py`; when that file exists `pythonized` performs no write
(the cache is unchanged) and returns what is imported from the existing
file, and a second call — with the same class or any class of the same
name — loads from the same cached source. -/
theorem C2_cache_keyed_by_name (fs : SourceDir) (cls : PyClass) :
    (∀ contents : String,
      fsLookup fs (cls.name ++ ".py") = some contents →
      pythonizedFS fs cls = (fs, contents)) ∧
    (∀ cls₂ : PyClass, cls₂.name = cls.name →
      pythonizedFS (pythonizedFS fs cls).1 cls₂ = pythonizedFS fs cls) := by
  constructor
  · intro contents h
    simp [pythonizedFS, h]
  · intro cls₂ hname
    match hfs : fsLookup fs (cls.name ++ ".py") with
    | some contents =>
      simp [pythonizedFS, hfs, hname]
    | none =>
      have hkey : fsLookup (fsWrite fs (cls.name ++ ".py") (genSource cls))
          (cls₂.name ++ ".py") = some (genSource cls) := by
        rw [hname]
        exact lookup_upsert_self fs (cls.name ++ ".py") (genSource cls)
      simp [pythonizedFS, hfs, hkey]

/-- Witness for C2 at concrete inputs: a cached file is returned untouched,
and a second call returns exactly what the first one did. -/
theorem C2_witness :
    pythonizedFS [("A.py", "cached")] ⟨"A", []⟩ =
      ([("A.py", "cached")], "cached") ∧
    pythonizedFS (pythonizedFS [] ⟨"B", []⟩).1 ⟨"B", []⟩ =
      pythonizedFS [] ⟨"B", []⟩ :=
  ⟨(C2_cache_keyed_by_name [("A.py", "cached")] ⟨"A", []⟩).1 "cached" rfl,
   (C2_cache_keyed_by_name [] ⟨"B", []⟩).2 ⟨"B", []⟩ rfl⟩

/-- C7: on a cache miss, `pythonized` writes the rendering of a single
class proxy named `<cls.__name__>_pythonized` subclassing the wrapped
class, whose body is exactly the descriptor attributes followed by the
snake-case alias attributes, and returns the imported contents of that
file. -/
theorem C7_generated_file_structure (fs : SourceDir) (cls : PyClass)
    (h : fsLookup fs (cls.name ++ ".py") = none) :
    pythonizedFS fs cls =
      (fsWrite fs (cls.name ++ ".py") (genSource cls), genSource cls) ∧
    (genProxy cls).name = cls.name ++ "_pythonized" ∧
    (genProxy cls).base = cls.name ∧
    (genProxy cls).attrs =
      descriptorsAttrs cls.name cls.methods ++
        snakeMethodsAttrs cls.name cls.methods ∧
    genSource cls =
      "from rootpy.pythonize import ROOTDescriptor, ROOTStaticDescriptor\n" ++
      "from rootpy import asrootpy, QROOT\n\n" ++
      cls.name ++ " = QROOT." ++ cls.name ++ "\n\n" ++
      "class " ++ (cls.name ++ "_pythonized") ++ "(" ++ cls.name ++ "):\n" ++
      String.intercalate "\n"
        ((descriptorsAttrs cls.name cls.methods ++
          snakeMethodsAttrs cls.name cls.methods).map renderAttr) ++
      "\n    " := by
  refine ⟨by simp [pythonizedFS, h], rfl, rfl, rfl, rfl⟩

/-- Witness for C7: the generated file for a minimal concrete class. -/
theorem C7_witness :
    pythonizedFS [] ⟨"TFoo", [("DoThing", ⟨"DoThing", none⟩)]⟩ =
      (fsWrite [] "TFoo.py"
        (genSource ⟨"TFoo", [("DoThing", ⟨"DoThing", none⟩)]⟩),
       genSource ⟨"TFoo", [("DoThing", ⟨"DoThing", none⟩)]⟩) :=
  (C7_generated_file_structure [] ⟨"TFoo", [("DoThing", ⟨"DoThing", none⟩)]⟩
    rfl).1

/-- C8: when generation fails on a cache miss, the partially written cache
file is unlinked before the exception propagates — the cache is exactly as
before the call — and a later call with a succeeding generation writes the
file; so a cache file exists only after a completed generation. -/
theorem C8_failed_generation_cleanup {ε : Type} (fs : SourceDir)
    (cls : PyClass) (e : ε) (fragment : String)
    (h : fsLookup fs (cls.name ++ ".py") = none) :
    pythonizedE fs cls (Except.error e) fragment = Except.error (e, fs) ∧
    fsLookup fs (cls.name ++ ".py") = none ∧
    (∀ src : String,
      @pythonizedE ε fs cls (Except.ok src) "" =
        Except.ok (fsWrite fs (cls.name ++ ".py") src, src)) := by
  refine ⟨?_, h, fun src => by simp [pythonizedE, h]⟩
  simp only [pythonizedE, h]
  rw [erase_write_absent fs (cls.name ++ ".py") fragment h]

/-- Witness for C8 at concrete inputs: the failed generation unlinks the
partial file and re-raises; the retry succeeds. -/
theorem C8_witness :
    pythonizedE ([] : SourceDir) ⟨"A", []⟩ (Except.error (0 : Nat)) "junk" =
      Except.error (0, ([] : SourceDir)) ∧
    @pythonizedE Nat ([] : SourceDir) ⟨"A", []⟩ (Except.ok "src") "" =
      Except.ok ([("A.py", "src")], "src") :=
  ⟨(C8_failed_generation_cleanup [] ⟨"A", []⟩ 0 "junk" rfl).1,
   (C8_failed_generation_cleanup [] ⟨"A", []⟩ 0 "junk" rfl).2.2 "src"⟩

/-! ## `tree2hdf5` lemmas and C9 -/

theorem dropObjectCols_eq_map (schema : List (String × Bool))
    (rows : List (List α)) :
    dropObjectCols schema rows = rows.map (dropRow schema) := by
  by_cases h : schema.any (fun c => c.2)
  · simp [dropObjectCols, dropRow, h]
  · rw [dropObjectCols, if_neg h]
    have hid : ∀ r : List α, dropRow schema r = r := fun r => by
      simp [dropRow, h]
    rw [funext hid]
    exact (List.map_id' rows).symm

theorem chunkFrom_eq (t : TTreeM α) (sel : List α → Bool) (e : Nat) :
    ∀ start : Nat,
      chunkFrom t sel e start =
        ((t.rows.drop start).filter sel).map (dropRow t.schema) := by
  have key : ∀ (n start : Nat), t.rows.length - start ≤ n →
      chunkFrom t sel e start =
        ((t.rows.drop start).filter sel).map (dropRow t.schema) := by
    intro n
    induction n with
    | zero =>
      intro start h0
      rw [chunkFrom, dropObjectCols_eq_map, dif_neg (by omega)]
      have hlen : (t.rows.drop start).length ≤ e + 1 := by
        rw [List.length_drop]
        omega
      simp [tree2arraySlice, List.take_of_length_le hlen]
    | succ n ih =>
      intro start h0
      rw [chunkFrom, dropObjectCols_eq_map]
      by_cases h : start + (e + 1) < t.rows.length
      · rw [dif_pos h, ih (start + (e + 1)) (by omega)]
        have hsplit :
            (t.rows.drop start).take (e + 1) ++
                t.rows.drop (start + (e + 1)) =
              t.rows.drop start := by
          rw [← List.drop_drop]
          exact List.take_append_drop (e + 1) (t.rows.drop start)
        rw [← hsplit, List.filter_append, List.map_append]
        simp [tree2arraySlice]
      · rw [dif_neg h]
        have hlen : (t.rows.drop start).length ≤ e + 1 := by
          rw [List.length_drop]
          omega
        simp [tree2arraySlice, List.take_of_length_le hlen]
  exact fun start => key t.rows.length start (by omega)

/-- C9: for every tree, selection and chunk size `entries > 0`, the chunked
path of `tree2hdf5` produces exactly the rows of the whole-tree path
(`entries <= 0`): the concatenation, in order, of the chunks read from
entry 0, with object columns dropped, equals the whole filtered tree with
object columns dropped. -/
theorem C9_chunked_equals_whole (t : TTreeM α) (sel : List α → Bool)
    (entries : Int) (h : 0 < entries) :
    tree2hdf5Rows t sel entries = wholeRows t sel := by
  rw [tree2hdf5Rows, if_neg (by omega), chunkFrom_eq]
  rw [wholeRows, dropObjectCols_eq_map, tree2arrayAll, List.drop_zero]

/-- Witness for C9: a concrete three-row tree with an object column,
converted with chunk size 2, gives the whole-tree result. -/
theorem C9_witness :
    tree2hdf5Rows
        (⟨"t", [("x", false), ("o", true)], [[1, 10], [2, 20], [3, 30]]⟩ :
          TTreeM Nat)
        (fun r => r.headD 0 != 2) 2 =
      wholeRows
        (⟨"t", [("x", false), ("o", true)], [[1, 10], [2, 20], [3, 30]]⟩ :
          TTreeM Nat)
        (fun r => r.headD 0 != 2) :=
  C9_chunked_equals_whole _ _ 2 (by decide)

/-! ## Lock-schedule lemmas and C5 -/

theorem sched_mem {h : Option Bool} {t₁ t₂ : List EvK} {s : List (Bool × EvK)}
    (hs : Sched h t₁ t₂ s) :
    s ∈ allScheds (t₁.length + t₂.length) h t₁ t₂ := by
  induction hs with
  | nil => simp [allScheds]
  | left hok hrec ih =>
    rename_i h e h₂ t₁ t₂ s
    cases t₂ with
    | nil =>
      simpa [allScheds, hok] using List.mem_map_of_mem (fun s => (false, e) :: s) ih
    | cons e₂ r₂ =>
      have hlen : (e :: t₁).length + (e₂ :: r₂).length =
          (t₁.length + (e₂ :: r₂).length) + 1 := by
        simp [List.length_cons]
        omega
      rw [hlen]
      refine List.mem_append_left _ ?_
      simpa [hok] using List.mem_map_of_mem (fun s => (false, e) :: s) ih
  | right hok hrec ih =>
    rename_i h e h₂ t₁ t₂ s
    cases t₁ with
    | nil =>
      simpa [allScheds, hok] using List.mem_map_of_mem (fun s => (true, e) :: s) ih
    | cons e₁ r₁ =>
      have hlen : (e₁ :: r₁).length + (e :: t₂).length =
          ((e₁ :: r₁).length + t₂.length) + 1 := by
        simp [List.length_cons]
        omega
      rw [hlen]
      refine List.mem_append_right _ ?_
      simpa [hok] using List.mem_map_of_mem (fun s => (true, e) :: s) ih

/-- C5: in the trace of `pythonized` the cache-file existence check and the
cache-file write happen strictly between acquiring and releasing the cache
directory lock; and under the mutual-exclusion lock semantics, in every
valid interleaving of two such traces the critical (check/write) events of
the two processes form two contiguous blocks — one process's check-then-write
never interleaves with the other's. -/
theorem C5_lock_excludes_interleaving :
    (∀ (fs : SourceDir) (cls : PyClass),
      ∃ mid, pythonizedTrace fs cls =
          Ev.acq :: (mid ++ [Ev.rel, Ev.imp (cls.name ++ ".py")]) ∧
        (∀ e ∈ mid, isCrit (eraseEv e) = true) ∧
        (pythonizedTrace fs cls).map eraseEv =
          traceShape (fsLookup fs (cls.name ++ ".py")).isNone) ∧
    (∀ (w₁ w₂ : Bool) (s : List (Bool × EvK)),
      Sched none (traceShape w₁) (traceShape w₂) s →
      noInterleave (critPids s)) := by
  constructor
  · intro fs cls
    match hfs : fsLookup fs (cls.name ++ ".py") with
    | some c =>
      exact ⟨[Ev.chk (cls.name ++ ".py")],
        by simp [pythonizedTrace, hfs],
        by simp [isCrit, eraseEv],
        by simp [pythonizedTrace, hfs, traceShape, eraseEv]⟩
    | none =>
      exact ⟨[Ev.chk (cls.name ++ ".py"), Ev.wr (cls.name ++ ".py")],
        by simp [pythonizedTrace, hfs],
        by simp [isCrit, eraseEv],
        by simp [pythonizedTrace, hfs, traceShape, eraseEv]⟩
  · intro w₁ w₂ s hs
    have key : ∀ x ∈ allScheds
        ((traceShape w₁).length + (traceShape w₂).length) none
        (traceShape w₁) (traceShape w₂), noInterleave (critPids x) := by
      unfold noInterleave
      cases w₁ <;> cases w₂ <;> decide
    exact key s (sched_mem hs)

/-- Witness for C5: the sequential schedule — process `false` runs its
whole generating trace, then process `true` runs its — is a valid schedule
and its critical events do not interleave. -/
theorem C5_witness :
    noInterleave (critPids
      [(false, EvK.acq), (false, EvK.chk), (false, EvK.wr), (false, EvK.rel),
       (false, EvK.imp), (true, EvK.acq), (true, EvK.chk), (true, EvK.wr),
       (true, EvK.rel), (true, EvK.imp)]) :=
  C5_lock_excludes_interleaving.2 true true _
    (Sched.left rfl (Sched.left rfl (Sched.left rfl (Sched.left rfl
      (Sched.left rfl (Sched.right rfl (Sched.right rfl (Sched.right rfl
        (Sched.right rfl (Sched.right rfl Sched.nil))))))))))

/-! ## Character and naming lemmas -/

theorem lookup_mem {κ ν : Type} [BEq κ] [LawfulBEq κ]
    {l : List (κ × ν)} {k : κ} {v : ν}
    (h : List.lookup k l = some v) : (k, v) ∈ l := by
  induction l with
  | nil => simp [List.lookup] at h
  | cons p rest ih =>
    obtain ⟨k₀, v₀⟩ := p
    rw [List.lookup_cons] at h
    by_cases hk : k = k₀
    · subst hk
      simp at h
      subst h
      exact List.mem_cons_self _ _
    · rw [beq_eq_false_iff_ne.mpr hk] at h
      exact List.mem_cons_of_mem _ (ih h)

theorem asciiTable_snd_not_key :
    ∀ p ∈ asciiTable, List.lookup p.2 asciiTable = none := by decide

theorem pyIsUpper_pyToLower (c : Char) : pyIsUpper (pyToLower c) = false := by
  unfold pyToLower pyIsUpper
  match hl : List.lookup c asciiTable with
  | none => simp [hl]
  | some v =>
    simp only [hl, Option.getD_some]
    rw [asciiTable_snd_not_key (c, v) (lookup_mem hl)]
    rfl

theorem snakeTail_not_upper :
    ∀ (cs : List Char) (c : Char), c ∈ snakeTail cs → pyIsUpper c = false := by
  intro cs
  induction cs with
  | nil => intro c hc; simp [snakeTail] at hc
  | cons d rest ih =>
    intro c hc
    rw [snakeTail] at hc
    by_cases hd : pyIsUpper d
    · rw [if_pos hd, List.mem_cons, List.mem_cons] at hc
      rcases hc with hc | hc | hc
      · subst hc
        decide
      · subst hc
        exact pyIsUpper_pyToLower d
      · exact ih c hc
    · rw [if_neg hd, List.mem_cons] at hc
      rcases hc with hc | hc
      · subst hc
        exact pyIsUpper_pyToLower d
      · exact ih c hc

theorem camel_to_snake_not_upper (n : String) :
    ∀ c ∈ (camel_to_snake n).toList, pyIsUpper c = false := by
  unfold camel_to_snake
  match n.toList with
  | [] => intro c hc; simp at hc
  | d :: cs =>
    intro c hc
    simp only [String.toList, String.mk, List.mem_cons] at hc
    rcases hc with hc | hc
    · subst hc
      exact pyIsUpper_pyToLower d
    · exact snakeTail_not_upper cs c hc

theorem check_name_eq_true_iff (s : String) :
    check_name s = true ↔ s ≠ "flush" ∧ iskeyword s = false := by
  unfold check_name
  by_cases h1 : s = "flush"
  · subst h1
    simp
  · rw [if_neg (by simpa using h1)]
    by_cases h2 : iskeyword s
    · simp [h2, h1]
    · simp [h2, h1]

/-- Soundness of `get_snake_names` membership: every emitted pair comes
from a listed method whose name is public, not all-lowercase, and whose
snake-case name passes `check_name`. -/
theorem get_snake_names_sound {β : Type} {ms : List (String × β)}
    {n s : String} (h : (n, s) ∈ get_snake_names ms) :
    s = camel_to_snake n ∧ check_name s = true ∧
    (∀ c cs, n.toList = c :: cs → c ≠ '_') ∧
    pyStrIsLower n = false ∧ (∃ b, (n, b) ∈ ms) := by
  unfold get_snake_names at h
  rw [if_neg (by decide)] at h
  rw [List.mem_filterMap] at h
  obtain ⟨⟨i, q⟩, hmem, hf⟩ := h
  dsimp only at hf
  split at hf
  · exact absurd hf (by simp)
  · split at hf
    · exact absurd hf (by simp)
    · rename_i htl
      split at hf
      · exact absurd hf (by simp)
      · split at hf
        · exact absurd hf (by simp)
        · rename_i hdup hd tl heq hcond hcheck
          rw [Option.some_inj] at hf
          injection hf with hn hs
          subst hn
          subst hs
          simp only [Bool.or_eq_true, beq_iff_eq, not_or] at hcond
          refine ⟨rfl, by simpa using hcheck, ?_, ?_, ?_⟩
          · intro c' cs' htl'
            rw [htl] at htl'
            injection htl' with hc _
            subst hc
            intro hceq
            exact hcond.1 hceq
          · simpa using hcond.2
          · obtain ⟨hi, hq⟩ := List.mem_enum hmem
            refine ⟨q.2, ?_⟩
            have hq2 : q ∈ ms := by
              rw [hq]
              exact List.getElem_mem hi
            simpa using hq2

/-- Soundness of `descPairs` membership: every emitted descriptor attribute
is named by the snake-case conversion of its property and passes
`check_name`. -/
theorem descPairs_sound {base : String} {ms : List (String × PyMethod)}
    {p : String} {a : PyAttr} (h : (p, a) ∈ descPairs base ms) :
    a.name = camel_to_snake p ∧ check_name a.name = true := by
  unfold descPairs at h
  rw [List.mem_filterMap] at h
  obtain ⟨pr, hmem, hf⟩ := h
  dsimp only at hf
  split at hf
  · exact absurd hf (by simp)
  · split at hf
    · exact absurd hf (by simp)
    · split at hf
      · exact absurd hf (by simp)
      · rename_i hnb hcheck
        rw [Option.some_inj] at hf
        injection hf with hp ha
        subst hp
        subst ha
        exact ⟨rfl, by simpa using hcheck⟩

/-- C3: every alias emitted by the generator — snake-case method alias or
property descriptor — is named by the (all-lowercase) snake-case conversion
of the wrapped method or property name; no alias is named by a Python
keyword or `flush`; and methods whose names begin with an underscore or are
already entirely lowercase receive no snake-case alias. -/
theorem C3_alias_naming (β : Type) :
    (∀ (ms : List (String × β)) (n s : String),
      (n, s) ∈ get_snake_names ms →
      s = camel_to_snake n ∧
      (∀ c ∈ s.toList, pyIsUpper c = false) ∧
      s ≠ "flush" ∧ iskeyword s = false ∧
      (∀ c cs, n.toList = c :: cs → c ≠ '_') ∧
      pyStrIsLower n = false) ∧
    (∀ (base : String) (ms : List (String × PyMethod)) (p : String)
      (a : PyAttr),
      (p, a) ∈ descPairs base ms →
      a.name = camel_to_snake p ∧
      (∀ c ∈ a.name.toList, pyIsUpper c = false) ∧
      a.name ≠ "flush" ∧ iskeyword a.name = false) := by
  constructor
  · intro ms n s h
    obtain ⟨hs, hcheck, hund, hlow, _⟩ := get_snake_names_sound h
    obtain ⟨hfl, hkw⟩ := (check_name_eq_true_iff s).mp hcheck
    exact ⟨hs, hs ▸ camel_to_snake_not_upper n, hfl, hkw, hund, hlow⟩
  · intro base ms p a h
    obtain ⟨hs, hcheck⟩ := descPairs_sound h
    obtain ⟨hfl, hkw⟩ := (check_name_eq_true_iff a.name).mp hcheck
    exact ⟨hs, hs ▸ camel_to_snake_not_upper p, hfl, hkw⟩

/-- Witness for C3 at a concrete input: the alias emitted for `SomeMethod`
is its snake-case name, lowercase, not a keyword and not `flush`; the
wrapped name is public and not all-lowercase. -/
theorem C3_witness :
    "some_method" = camel_to_snake "SomeMethod" ∧
    (∀ c ∈ ("some_method" : String).toList, pyIsUpper c = false) ∧
    ("some_method" : String) ≠ "flush" ∧ iskeyword "some_method" = false ∧
    (∀ c cs, ("SomeMethod" : String).toList = c :: cs → c ≠ '_') ∧
    pyStrIsLower "SomeMethod" = false :=
  (C3_alias_naming Nat).1 [("SomeMethod", 0)] "SomeMethod" "some_method"
    (by decide)

/-- C6 (the failing input): on a class whose sorted method list is
`AB, Ab, Cd, cd`, the duplicate filter of `get_snake_names` — whose own
comment says it filters out "methods that already exist in lower and
uppercase forms i.e. TDirectory::cd and Cd" — still emits the alias
`cd = Cd`: `seen.index(n)` is an index into `seen`, not into the method
list, so the first occurrence of the second duplicated group is never
marked as a duplicate. -/
theorem C6_duplicate_filter_fails :
    get_snake_names [("AB", ()), ("Ab", ()), ("Cd", ()), ("cd", ())] =
      [("Cd", "cd")] := by decide

/-! ## `descriptors` characterization lemmas -/

theorem matchDescriptor_eq_some {name : String} {a : Char} {P : String}
    (h : matchDescriptor name = some (a, P)) :
    name.data = a :: 'e' :: 't' :: P.data ∧ P.data ≠ [] ∧
      (a == 's' || a == 'S' || a == 'g' || a == 'G') = true := by
  rw [matchDescriptor] at h
  split at h
  · rename_i a' c rest heq
    split at h
    · rename_i hcond
      rw [Option.some_inj] at h
      injection h with ha hP
      subst ha
      subst hP
      exact ⟨heq, by simp, hcond⟩
    · exact absurd h (by simp)
  · exact absurd h (by simp)

theorem matchDescriptor_of_data {name : String} {a c : Char} {rest : List Char}
    (htl : name.data = a :: 'e' :: 't' :: c :: rest)
    (ha : (a == 's' || a == 'S' || a == 'g' || a == 'G') = true) :
    matchDescriptor name = some (a, String.mk (c :: rest)) := by
  rw [matchDescriptor,
    show name.toList = a :: 'e' :: 't' :: c :: rest from htl]
  simp [ha]

theorem setterDecl_iff {P : String} (hP : P ≠ "") (m : String × PyMethod) :
    setterDecl P m = true ↔
      ∃ a sig, matchDescriptor m.1 = some (a, P) ∧ pyToUpper a = 'S' ∧
        m.2.sig = some sig ∧ sig.ret = "void" := by
  constructor
  · intro h
    unfold setterDecl at h
    rw [Bool.and_eq_true] at h
    obtain ⟨hname, hsig⟩ := h
    match hs : m.2.sig with
    | none =>
      rw [hs] at hsig
      exact absurd hsig (by simp)
    | some sig =>
      rw [hs] at hsig
      have hret : sig.ret = "void" := by simpa using hsig
      rw [Bool.or_eq_true] at hname
      match hpd : P.data with
      | [] => exact absurd (String.ext hpd) hP
      | c :: rest =>
        rcases hname with hname | hname
        · have hd : m.1.data = 'S' :: 'e' :: 't' :: c :: rest := by
            rw [eq_of_beq hname, String.data_append, hpd]
            rfl
          refine ⟨'S', sig, ?_, by decide, rfl, hret⟩
          rw [matchDescriptor_of_data hd (by decide)]
          rw [show String.mk (c :: rest) = P from by rw [← hpd]]
        · have hd : m.1.data = 's' :: 'e' :: 't' :: c :: rest := by
            rw [eq_of_beq hname, String.data_append, hpd]
            rfl
          refine ⟨'s', sig, ?_, by decide, rfl, hret⟩
          rw [matchDescriptor_of_data hd (by decide)]
          rw [show String.mk (c :: rest) = P from by rw [← hpd]]
  · rintro ⟨a, sig, hmd, hup, hs, hret⟩
    obtain ⟨hd, hPd, ha⟩ := matchDescriptor_eq_some hmd
    have haSet : a = 's' ∨ a = 'S' := by
      simp only [Bool.or_eq_true, beq_iff_eq] at ha
      rcases ha with ((ha | ha) | ha) | ha
      · exact Or.inl ha
      · exact Or.inr ha
      · subst ha
        exact absurd hup (by decide)
      · subst ha
        exact absurd hup (by decide)
    unfold setterDecl
    rw [Bool.and_eq_true, hs]
    refine ⟨?_, by simp [hret]⟩
    rw [Bool.or_eq_true]
    rcases haSet with ha' | ha'
    · subst ha'
      refine Or.inr (beq_iff_eq.mpr (String.ext ?_))
      rw [hd, String.data_append]
      rfl
    · subst ha'
      refine Or.inl (beq_iff_eq.mpr (String.ext ?_))
      rw [hd, String.data_append]
      rfl

theorem getterDecl_iff {P : String} (hP : P ≠ "") (m : String × PyMethod) :
    getterDecl P m = true ↔
      ∃ a sig, matchDescriptor m.1 = some (a, P) ∧ pyToUpper a = 'G' ∧
        m.2.sig = some sig ∧ sig.ret ≠ "void" := by
  constructor
  · intro h
    unfold getterDecl at h
    rw [Bool.and_eq_true] at h
    obtain ⟨hname, hsig⟩ := h
    match hs : m.2.sig with
    | none =>
      rw [hs] at hsig
      exact absurd hsig (by simp)
    | some sig =>
      rw [hs] at hsig
      have hret : sig.ret ≠ "void" := by simpa using hsig
      rw [Bool.or_eq_true] at hname
      match hpd : P.data with
      | [] => exact absurd (String.ext hpd) hP
      | c :: rest =>
        rcases hname with hname | hname
        · have hd : m.1.data = 'G' :: 'e' :: 't' :: c :: rest := by
            rw [eq_of_beq hname, String.data_append, hpd]
            rfl
          refine ⟨'G', sig, ?_, by decide, rfl, hret⟩
          rw [matchDescriptor_of_data hd (by decide)]
          rw [show String.mk (c :: rest) = P from by rw [← hpd]]
        · have hd : m.1.data = 'g' :: 'e' :: 't' :: c :: rest := by
            rw [eq_of_beq hname, String.data_append, hpd]
            rfl
          refine ⟨'g', sig, ?_, by decide, rfl, hret⟩
          rw [matchDescriptor_of_data hd (by decide)]
          rw [show String.mk (c :: rest) = P from by rw [← hpd]]
  · rintro ⟨a, sig, hmd, hup, hs, hret⟩
    obtain ⟨hd, hPd, ha⟩ := matchDescriptor_eq_some hmd
    have haGet : a = 'g' ∨ a = 'G' := by
      simp only [Bool.or_eq_true, beq_iff_eq] at ha
      rcases ha with ((ha | ha) | ha) | ha
      · subst ha
        exact absurd hup (by decide)
      · subst ha
        exact absurd hup (by decide)
      · exact Or.inl ha
      · exact Or.inr ha
    unfold getterDecl
    rw [Bool.and_eq_true, hs]
    refine ⟨?_, by simp [hret]⟩
    rw [Bool.or_eq_true]
    rcases haGet with ha' | ha'
    · subst ha'
      refine Or.inr (beq_iff_eq.mpr (String.ext ?_))
      rw [hd, String.data_append]
      rfl
    · subst ha'
      refine Or.inl (beq_iff_eq.mpr (String.ext ?_))
      rw [hd, String.data_append]
      rfl

theorem mem_upsert_keys {m : List (String × α)} {k x : String} {v : α}
    (h : x ∈ (upsert m k v).map Prod.fst) :
    x = k ∨ x ∈ m.map Prod.fst := by
  induction m with
  | nil =>
    simp [upsert] at h
    exact Or.inl h
  | cons p rest ih =>
    obtain ⟨k₀, v₀⟩ := p
    by_cases hk : k₀ = k
    · subst hk
      simp only [upsert, beq_self_eq_true, if_pos] at h
      simp at h ⊢
      tauto
    · rw [upsert, if_neg (by simpa using hk)] at h
      simp only [List.map_cons, List.mem_cons] at h ⊢
      rcases h with h | h
      · exact Or.inr (Or.inl h)
      · rcases ih h with h | h
        · exact Or.inl h
        · exact Or.inr (Or.inr h)

theorem upsert_keys_nodup {m : List (String × α)} {k : String} {v : α}
    (h : (m.map Prod.fst).Nodup) :
    ((upsert m k v).map Prod.fst).Nodup := by
  induction m with
  | nil => simp [upsert]
  | cons p rest ih =>
    obtain ⟨k₀, v₀⟩ := p
    simp only [List.map_cons, List.nodup_cons] at h
    obtain ⟨hk₀, hrest⟩ := h
    by_cases hk : k₀ = k
    · subst hk
      rw [upsert, if_pos (by simp)]
      rw [List.map_cons]
      exact List.nodup_cons.mpr ⟨hk₀, hrest⟩
    · rw [upsert, if_neg (by simpa using hk)]
      simp only [List.map_cons, List.nodup_cons]
      refine ⟨fun hc => ?_, ih hrest⟩
      rcases mem_upsert_keys hc with hc | hc
      · exact hk hc
      · exact hk₀ hc

theorem lookup_of_mem_nodup {m : List (String × α)}
    (h : (m.map Prod.fst).Nodup) {k : String} {v : α} (hm : (k, v) ∈ m) :
    List.lookup k m = some v := by
  induction m with
  | nil => simp at hm
  | cons p rest ih =>
    obtain ⟨k₀, v₀⟩ := p
    simp only [List.map_cons, List.nodup_cons] at h
    obtain ⟨hk₀, hrest⟩ := h
    rw [List.mem_cons] at hm
    rcases hm with hm | hm
    · injection hm with h1 h2
      subst h1
      subst h2
      simp [List.lookup_cons]
    · have hk : k ≠ k₀ := by
        intro hc
        subst hc
        exact hk₀ (by simpa using List.mem_map_of_mem Prod.fst hm)
      rw [List.lookup_cons, beq_eq_false_iff_ne.mpr hk]
      exact ih hrest hm

theorem collect_keys_nodup :
    ∀ (ms : List (String × PyMethod))
      (ss gs : List (String × (PyMethod × Bool))),
      (ss.map Prod.fst).Nodup → (gs.map Prod.fst).Nodup →
      (((collectAccessors ss gs ms).1.map Prod.fst).Nodup ∧
        ((collectAccessors ss gs ms).2.map Prod.fst).Nodup) := by
  intro ms
  induction ms with
  | nil =>
    intro ss gs hss hgs
    exact ⟨hss, hgs⟩
  | cons m rest ih =>
    obtain ⟨name, thing⟩ := m
    intro ss gs hss hgs
    rw [collectAccessors]
    cases hmd : matchDescriptor name with
    | none => exact ih ss gs hss hgs
    | some ap =>
      obtain ⟨a, prop⟩ := ap
      cases hsig : thing.sig with
      | none => exact ih ss gs hss hgs
      | some sig =>
        dsimp only
        by_cases hup : (pyToUpper a == 'S') = true
        · rw [if_pos hup]
          by_cases hret : (sig.ret == "void") = true
          · rw [if_pos hret]
            exact ih _ gs (upsert_keys_nodup hss) hgs
          · rw [if_neg hret]
            exact ih ss gs hss hgs
        · rw [if_neg hup]
          by_cases hret : (sig.ret == "void") = true
          · rw [if_pos hret]
            exact ih ss gs hss hgs
          · rw [if_neg hret]
            exact ih ss _ hss (upsert_keys_nodup hgs)

theorem collect_setters_lookup {P : String} (hP : P ≠ "") :
    ∀ (ms : List (String × PyMethod))
      (ss gs : List (String × (PyMethod × Bool))),
      List.lookup P (collectAccessors ss gs ms).1 =
        (match lastMatch (setterDecl P) ms with
         | some m => some (m.2, sigStatic m)
         | none => List.lookup P ss) := by
  intro ms
  induction ms with
  | nil => intro ss gs; rfl
  | cons m rest ih =>
    intro ss gs
    obtain ⟨name, thing⟩ := m
    rw [collectAccessors, lastMatch]
    cases hlm : lastMatch (setterDecl P) rest with
    | some b =>
      cases hmd : matchDescriptor name with
      | none =>
        rw [ih ss gs, hlm]
      | some ap =>
        obtain ⟨a, prop⟩ := ap
        cases hsig : thing.sig with
        | none => rw [ih ss gs, hlm]
        | some sig =>
          dsimp only
          by_cases hup : (pyToUpper a == 'S') = true
          · rw [if_pos hup]
            by_cases hret : (sig.ret == "void") = true
            · rw [if_pos hret, ih _ gs, hlm]
            · rw [if_neg hret, ih ss gs, hlm]
          · rw [if_neg hup]
            by_cases hret : (sig.ret == "void") = true
            · rw [if_pos hret, ih ss gs, hlm]
            · rw [if_neg hret, ih ss _, hlm]
    | none =>
      by_cases hsd : setterDecl P (name, thing) = true
      · obtain ⟨a, sig, hmd, hup, hs, hret⟩ := (setterDecl_iff hP _).mp hsd
        dsimp only at hmd hs
        rw [hmd, hs]
        dsimp only
        rw [if_pos (by simpa using hup), if_pos (by simpa using hret)]
        rw [ih _ gs, hlm, if_pos hsd]
        rw [lookup_upsert_self]
        have hss2 : sigStatic (name, thing) = sig.isStatic := by
          simp [sigStatic, hs]
        dsimp only
        rw [hss2]
      · rw [if_neg hsd]
        cases hmd : matchDescriptor name with
        | none => rw [ih ss gs, hlm]
        | some ap =>
          obtain ⟨a, prop⟩ := ap
          cases hsig : thing.sig with
          | none => rw [ih ss gs, hlm]
          | some sig =>
            dsimp only
            by_cases hup : (pyToUpper a == 'S') = true
            · by_cases hret : (sig.ret == "void") = true
              · rw [if_pos hup, if_pos hret, ih _ gs, hlm]
                have hprop : prop ≠ P := by
                  intro hc
                  subst hc
                  exact hsd ((setterDecl_iff hP (name, thing)).mpr
                    ⟨a, sig, hmd, by simpa using hup, hsig,
                      by simpa using hret⟩)
                exact lookup_upsert_ne ss prop (thing, sig.isStatic) P
                  (Ne.symm hprop)
              · rw [if_pos hup, if_neg hret, ih ss gs, hlm]
            · rw [if_neg hup]
              by_cases hret : (sig.ret == "void") = true
              · rw [if_pos hret, ih ss gs, hlm]
              · rw [if_neg hret, ih ss _, hlm]

theorem collect_getters_lookup {P : String} (hP : P ≠ "") :
    ∀ (ms : List (String × PyMethod))
      (ss gs : List (String × (PyMethod × Bool))),
      List.lookup P (collectAccessors ss gs ms).2 =
        (match lastMatch (getterDecl P) ms with
         | some m => some (m.2, sigStatic m)
         | none => List.lookup P gs) := by
  intro ms
  induction ms with
  | nil => intro ss gs; rfl
  | cons m rest ih =>
    intro ss gs
    obtain ⟨name, thing⟩ := m
    rw [collectAccessors, lastMatch]
    cases hlm : lastMatch (getterDecl P) rest with
    | some b =>
      cases hmd : matchDescriptor name with
      | none =>
        rw [ih ss gs, hlm]
      | some ap =>
        obtain ⟨a, prop⟩ := ap
        cases hsig : thing.sig with
        | none => rw [ih ss gs, hlm]
        | some sig =>
          dsimp only
          by_cases hup : (pyToUpper a == 'S') = true
          · rw [if_pos hup]
            by_cases hret : (sig.ret == "void") = true
            · rw [if_pos hret, ih _ gs, hlm]
            · rw [if_neg hret, ih ss gs, hlm]
          · rw [if_neg hup]
            by_cases hret : (sig.ret == "void") = true
            · rw [if_pos hret, ih ss gs, hlm]
            · rw [if_neg hret, ih ss _, hlm]
    | none =>
      by_cases hgd : getterDecl P (name, thing) = true
      · obtain ⟨a, sig, hmd, hup, hs, hret⟩ := (getterDecl_iff hP _).mp hgd
        dsimp only at hmd hs
        rw [hmd, hs]
        dsimp only
        have hupS : (pyToUpper a == 'S') = false := by
          rw [hup]
          decide
        have hretv : (sig.ret == "void") = false := beq_eq_false_iff_ne.mpr hret
        rw [if_neg (by simp [hupS]), if_neg (by simp [hretv])]
        rw [ih ss _, hlm, if_pos hgd]
        rw [lookup_upsert_self]
        have hss2 : sigStatic (name, thing) = sig.isStatic := by
          simp [sigStatic, hs]
        dsimp only
        rw [hss2]
      · rw [if_neg hgd]
        cases hmd : matchDescriptor name with
        | none => rw [ih ss gs, hlm]
        | some ap =>
          obtain ⟨a, prop⟩ := ap
          cases hsig : thing.sig with
          | none => rw [ih ss gs, hlm]
          | some sig =>
            dsimp only
            by_cases hup : (pyToUpper a == 'S') = true
            · rw [if_pos hup]
              by_cases hret : (sig.ret == "void") = true
              · rw [if_pos hret, ih _ gs, hlm]
              · rw [if_neg hret, ih ss gs, hlm]
            · rw [if_neg hup]
              by_cases hret : (sig.ret == "void") = true
              · rw [if_pos hret, ih ss gs, hlm]
              · rw [if_neg hret, ih ss _, hlm]
                have hprop : prop ≠ P := by
                  intro hc
                  subst hc
                  have hupG : pyToUpper a = 'G' := by
                    obtain ⟨_, _, ha⟩ := matchDescriptor_eq_some hmd
                    simp only [Bool.or_eq_true, beq_iff_eq] at ha
                    rcases ha with ((ha | ha) | ha) | ha <;> subst ha
                    · exact absurd (by decide : (pyToUpper 's' == 'S') = true)
                        (by simpa using hup)
                    · exact absurd (by decide : (pyToUpper 'S' == 'S') = true)
                        (by simpa using hup)
                    · rfl
                    · rfl
                  exact hgd ((getterDecl_iff hP (name, thing)).mpr
                    ⟨a, sig, hmd, hupG, hsig, by simpa using hret⟩)
                exact lookup_upsert_ne gs prop (thing, sig.isStatic) P
                  (Ne.symm hprop)

theorem exists_descPairs_iff {base P : String} {ms : List (String × PyMethod)} :
    (∃ a, (P, a) ∈ descPairs base ms) ↔
      (∃ st sb gt gb,
        List.lookup P (collectAccessors [] [] ms).1 = some (st, sb) ∧
        List.lookup P (collectAccessors [] [] ms).2 = some (gt, gb) ∧
        sb = gb ∧ check_name (camel_to_snake P) = true) := by
  constructor
  · rintro ⟨a, ha⟩
    unfold descPairs at ha
    rw [List.mem_filterMap] at ha
    obtain ⟨pr, hmem, hf⟩ := ha
    dsimp only at hf
    split at hf
    · exact absurd hf (by simp)
    · rename_i getter gStatic hlg
      split at hf
      · exact absurd hf (by simp)
      · split at hf
        · exact absurd hf (by simp)
        · rename_i hnb hcheck
          rw [Option.some_inj] at hf
          injection hf with hp hattr
          subst hp
          have hnodup := (collect_keys_nodup ms [] [] (by simp) (by simp)).1
          have hls := lookup_of_mem_nodup hnodup hmem
          refine ⟨pr.2.1, pr.2.2, getter, gStatic, by simpa using hls,
            hlg, by simpa using hnb, by simpa using hcheck⟩
  · rintro ⟨st, sb, gt, gb, hls, hlg, hsb, hcheck⟩
    subst hsb
    refine ⟨⟨camel_to_snake P,
      (if sb then "ROOTStaticDescriptor" else "ROOTDescriptor") ++ "(" ++
        base ++ "." ++ st.pyname ++ ", " ++ base ++ "." ++ gt.pyname ++ ")"⟩,
      ?_⟩
    unfold descPairs
    rw [List.mem_filterMap]
    refine ⟨(P, (st, sb)), lookup_mem hls, ?_⟩
    dsimp only
    rw [hlg]
    dsimp only
    rw [if_neg (by simp), if_neg (by simp [hcheck])]

/-- C1 (counterexample): with the method list `GetX` (static, non-void),
`SetX` (static, void), `getX` (non-static, non-void) — in `getmembers`'
sorted order — the claim's condition holds (`SetX` and `GetX` form a
void-setter/non-void-getter pair agreeing on static, and `x` passes the
name check), yet `descriptors` emits no alias: the later `getX` overwrote
`GetX` in the getter dict, and its static qualifier disagrees with the
stored setter's. -/
theorem C1_counterexample :
    specAliasCond
      [("GetX", ⟨"GetX", some ⟨"Int_t", true⟩⟩),
       ("SetX", ⟨"SetX", some ⟨"void", true⟩⟩),
       ("getX", ⟨"getX", some ⟨"Int_t", false⟩⟩)] "X" = true ∧
    descPairs "T"
      [("GetX", ⟨"GetX", some ⟨"Int_t", true⟩⟩),
       ("SetX", ⟨"SetX", some ⟨"void", true⟩⟩),
       ("getX", ⟨"getX", some ⟨"Int_t", false⟩⟩)] = [] := by decide

/-- C1 (amended): `descriptors` emits a property-style alias for `P`
exactly when the LAST method in introspection order named `Set<P>`/`set<P>`
whose docstring parses with return type `void` and the LAST method named
`Get<P>`/`get<P>` whose docstring parses with a non-void return type both
exist, agree on being static, and the derived snake-case name passes the
name check. -/
theorem C1_property_alias_iff (base P : String)
    (ms : List (String × PyMethod)) (hP : P ≠ "") :
    (∃ a, (P, a) ∈ descPairs base ms) ↔
      (∃ st gt, lastMatch (setterDecl P) ms = some st ∧
        lastMatch (getterDecl P) ms = some gt ∧
        sigStatic st = sigStatic gt ∧
        check_name (camel_to_snake P) = true) := by
  rw [exists_descPairs_iff]
  constructor
  · rintro ⟨st, sb, gt, gb, hls, hlg, hsb, hcheck⟩
    rw [collect_setters_lookup hP ms [] []] at hls
    rw [collect_getters_lookup hP ms [] []] at hlg
    cases hlmS : lastMatch (setterDecl P) ms with
    | none =>
      rw [hlmS] at hls
      exact absurd hls (by simp [List.lookup])
    | some mS =>
      rw [hlmS] at hls
      cases hlmG : lastMatch (getterDecl P) ms with
      | none =>
        rw [hlmG] at hlg
        exact absurd hlg (by simp [List.lookup])
      | some mG =>
        rw [hlmG] at hlg
        rw [Option.some_inj] at hls hlg
        injection hls with hst hsb2
        injection hlg with hgt hgb2
        refine ⟨mS, mG, rfl, rfl, ?_, hcheck⟩
        rw [hsb2, hgb2]
        exact hsb
  · rintro ⟨st, gt, hlmS, hlmG, hstat, hcheck⟩
    refine ⟨st.2, sigStatic st, gt.2, sigStatic gt, ?_, ?_, hstat, hcheck⟩
    · rw [collect_setters_lookup hP ms [] [], hlmS]
    · rw [collect_getters_lookup hP ms [] [], hlmG]

/-- Witness for C1 (amended) at a concrete input: a matching
`SetTitle`/`GetTitle` pair yields the `title` alias. -/
theorem C1_witness :
    ∃ a, ("Title", a) ∈ descPairs "T"
      [("GetTitle", ⟨"GetTitle", some ⟨"char*", false⟩⟩),
       ("SetTitle", ⟨"SetTitle", some ⟨"void", false⟩⟩)] :=
  (C1_property_alias_iff "T" "Title"
    [("GetTitle", ⟨"GetTitle", some ⟨"char*", false⟩⟩),
     ("SetTitle", ⟨"SetTitle", some ⟨"void", false⟩⟩)] (by decide)).mpr
    ⟨("SetTitle", ⟨"SetTitle", some ⟨"void", false⟩⟩),
     ("GetTitle", ⟨"GetTitle", some ⟨"char*", false⟩⟩),
     by decide, by decide, by decide, by decide⟩

/-! ## Python 2 attribute lemmas and C10 -/

theorem mem_methodMembers {F : Type} {d : List (String × PyEntry F)}
    {n : String} {v : PyEntry F} (h : (n, v) ∈ methodMembers d) :
    ∃ e, (n, e) ∈ d ∧ v = classGetattr e ∧
      ismethod (classGetattr e) = true := by
  unfold methodMembers at h
  rw [List.mem_filterMap] at h
  obtain ⟨p, hp, hf⟩ := h
  split at hf
  · rename_i hm
    rw [Option.some_inj] at hf
    injection hf with h1 h2
    subst h1
    subst h2
    exact ⟨p.2, by simpa using hp, rfl, hm⟩
  · exact absurd hf (by simp)

/-- C10 (counterexample): a wrapped `classmethod` is aliased by evaluating
`Base.Name` at import time, which dereferences the descriptor: the alias
stored for `DoIt` is the bound method, not the `classmethod` object in the
original class dict, and its type differs from the original entry's. -/
theorem C10_classmethod_not_copied :
    snakeAliasEntries
        (⟨"A", [("DoIt", PyEntry.classm ())]⟩ : PyClassDict Unit) =
      [("DoIt", "do_it", PyEntry.boundm ())] ∧
    List.lookup "DoIt" [("DoIt", PyEntry.classm ())] =
      some (PyEntry.classm ()) ∧
    pyTypeName (PyEntry.boundm ()) ≠ pyTypeName (PyEntry.classm ()) := by
  decide

/-- C10 (amended): every attribute aliased by the snake-case generator is
one whose `getattr` value is a method (so `staticmethod`s and `property`s
are never aliased); the alias stores the `getattr` value of the original
entry — not the class-dict descriptor itself — and attribute access on the
alias yields an object of the same Python type (`instancemethod`) as
attribute access on the original entry. -/
theorem C10_alias_value_semantics {F : Type} (c : PyClassDict F)
    (hnd : (c.dict.map Prod.fst).Nodup) (n s : String) (e : PyEntry F)
    (h : (n, s, e) ∈ snakeAliasEntries c) :
    ∃ orig, List.lookup n c.dict = some orig ∧
      e = classGetattr orig ∧
      ismethod (classGetattr orig) = true ∧
      (∀ f, orig ≠ PyEntry.staticm f) ∧
      (∀ f, orig ≠ PyEntry.prop f) ∧
      pyTypeName (classGetattr e) = pyTypeName (classGetattr orig) ∧
      pyTypeName e = "instancemethod" := by
  unfold snakeAliasEntries at h
  rw [List.mem_filterMap] at h
  obtain ⟨p, hp, hf⟩ := h
  obtain ⟨pn, ps⟩ := p
  cases hl : List.lookup pn c.dict with
  | none =>
    rw [hl] at hf
    exact absurd hf (by simp)
  | some orig =>
    rw [hl] at hf
    simp only [Option.map_some'] at hf
    rw [Option.some_inj] at hf
    injection hf with h1 h23
    injection h23 with h2 h3
    subst h1
    subst h2
    subst h3
    obtain ⟨_, _, _, _, b, hbm⟩ := get_snake_names_sound hp
    obtain ⟨e₀, he₀, hbv, hbi⟩ := mem_methodMembers hbm
    have hle : List.lookup pn c.dict = some e₀ := lookup_of_mem_nodup hnd he₀
    rw [hl, Option.some_inj] at hle
    subst hle
    refine ⟨orig, hl, rfl, hbi, ?_, ?_, ?_, ?_⟩
    · intro f hc
      subst hc
      simp [classGetattr, ismethod] at hbi
    · intro f hc
      subst hc
      simp [classGetattr, ismethod] at hbi
    · cases orig <;> simp_all [classGetattr, ismethod, pyTypeName]
    · cases orig <;> simp_all [classGetattr, ismethod, pyTypeName]

/-- Witness for C10 (amended) at a concrete class: the alias of a plain
method stores its unbound-method value, which is a method and has type
`instancemethod` under attribute access, like the original. -/
theorem C10_witness :
    ∃ orig, List.lookup "DoIt"
        [("DoIt", PyEntry.func ())] = some orig ∧
      PyEntry.unboundm () = classGetattr orig ∧
      ismethod (classGetattr orig) = true ∧
      (∀ f, orig ≠ PyEntry.staticm f) ∧
      (∀ f, orig ≠ PyEntry.prop f) ∧
      pyTypeName (classGetattr (PyEntry.unboundm ())) =
        pyTypeName (classGetattr orig) ∧
      pyTypeName (PyEntry.unboundm ()) = "instancemethod" :=
  C10_alias_value_semantics
    (⟨"A", [("DoIt", PyEntry.func ())]⟩ : PyClassDict Unit)
    (by decide) "DoIt" "do_it" (PyEntry.unboundm ()) (by decide)

end Rootpy
